import Mathlib

/-!
Verification of the stream ingestion and emission layer of the ed line editor
(io.c).  The byte-level functions of io.c are embedded as executable Lean
functions over lists of bytes (naturals below 256); the external
line-collection storage engine (buffer.c, declared in ed.h but not part of
the io layer) is modelled from the specification where io.c consumes it.

Model of a byte stream: a `List Nat`, one element per byte; end of the list
is end-of-stream.  Machine reads never overflow here (sizes are plain
counts), so no modular arithmetic is needed.
-/

/-- A node of the line collection: an identity (modelling pointer identity of
the C `line_t` node) and the stored bytes of the line (without the trailing
newline, which the collection never stores). -/
structure LineRec where
  id : Nat
  bytes : List Nat
deriving DecidableEq

/-- The session state visible to io.c: the ordered line collection, the
sticky binary-mode flag (`isbinary`/`set_binary`), the unterminated-line
marker (the static `unterminated_line` pointer, held as a node id, `none`
for the C null pointer), and a fresh-id counter for newly created nodes. -/
structure EdState where
  lines : List LineRec
  isbinary : Bool
  unterminated : Option Nat
  nextId : Nat
deriving DecidableEq

/-- `last_addr()` of the collection: lines are addressed 1-based, so the last
address is the length of the list; 0 is the header node of an empty list. -/
def lastAddr (st : EdState) : Nat := st.lines.length

/-- Modelled from the spec: `search_line_node` (line-collection engine,
not under src/) resolves an address to a collection node; node identity is
modelled by the id field.  Address 0 resolves to the header node, whose id
is 0 by convention; line ids issued by `mkRecs` start at 1, so the header id
collides with no line. -/
def node_id_at (lines : List LineRec) (addr : Nat) : Nat :=
  if addr = 0 then 0 else
    match lines[addr - 1]? with
    | some r => r.id
    | none => 0

/-- `unterminated_last_line()` of io.c: the marker is set (non-null) and is
the node at the last address of the collection. -/
def unterminated_last_line (st : EdState) : Bool :=
  match st.unterminated with
  | none => false
  | some i => decide (i = node_id_at st.lines (lastAddr st))

/-- Modelled from the spec: `get_sbuf_line` (line-collection engine, not
under src/) fetches the stored content of the node at an address. -/
def get_sbuf_line (st : EdState) (a : Nat) : Option LineRec :=
  st.lines[a - 1]?

/-- Modelled from the spec: `put_sbuf_line` (line-collection engine, not
under src/) inserts one line after the current position; the stored line is
the given bytes up to (excluding) the first newline inside the given size. -/
def put_sbuf_line (s : List Nat) (size : Nat) : List Nat :=
  (s.take size).takeWhile (fun c => c ≠ 10)

/-- Result of `read_stream_line`: the buffer contents (always ending in a
newline byte when `size` is nonzero), the reported size, whether a newline
was synthesized now (the write through `*newline_addedp`), the binary flag
after the read, and the unread remainder of the stream. -/
structure RSLResult where
  buf : List Nat
  size : Nat
  synth : Bool
  binary : Bool
  rest : List Nat
deriving DecidableEq

/-- io.c `read_stream_line`: read bytes until a newline is consumed or the
stream ends; any NUL byte read sets the binary flag.  On end-of-stream with
at least one byte read and no newline, a newline is synthesized, the
newline-added flag is reported, and the synthesized byte is counted in the
returned size exactly when the session is not (now) in binary mode
(`if( !isbinary() ) ++i;`). -/
def read_stream_line (binary : Bool) (input : List Nat) : RSLResult :=
  let chunk := input.takeWhile (fun c => c ≠ 10)
  if chunk.length < input.length then
    { buf := chunk ++ [10], size := chunk.length + 1, synth := false,
      binary := binary || decide (0 ∈ chunk), rest := input.drop (chunk.length + 1) }
  else if input = [] then
    { buf := [], size := 0, synth := false, binary := binary, rest := [] }
  else
    { buf := input ++ [10],
      size := if binary || decide (0 ∈ input) then input.length else input.length + 1,
      synth := true, binary := binary || decide (0 ∈ input), rest := [] }

/-- Result of the ingest loop of `read_stream`: the stored bytes of the
inserted lines in order, the accumulated total size, the final value of the
`newline_added` variable, and the binary flag after the loop. -/
structure IngestResult where
  lines : List (List Nat)
  total : Nat
  nlAdded : Bool
  binary : Bool
deriving DecidableEq

/-- The `while( true )` ingest loop of `read_stream`, with explicit fuel.
Each pass calls `read_stream_line`, stops on size 0 (which happens exactly
when the remaining input is empty), otherwise accumulates the size and
stores the line via `put_sbuf_line( s, size + newline_added )`.  One unit of
fuel is spent per line; since every line consumes at least one input byte,
fuel `input.length` is always enough. -/
def ingest_go : Nat → Bool → Bool → List Nat → IngestResult
  | 0, binary, nl, _ => ⟨[], 0, nl, binary⟩
  | fuel + 1, binary, nl, input =>
    if input = [] then ⟨[], 0, nl, binary⟩
    else
      let r := read_stream_line binary input
      let nl2 := nl || r.synth
      let q := ingest_go fuel r.binary nl2 r.rest
      ⟨put_sbuf_line r.buf (r.size + (if nl2 then 1 else 0)) :: q.lines,
       r.size + q.total, q.nlAdded, q.binary⟩

/-- The ingest loop of `read_stream`, entered with the session binary flag
and `newline_added = false`. -/
def ingest_loop (binary nl : Bool) (input : List Nat) : IngestResult :=
  ingest_go input.length binary nl input

/-- Fresh line-collection nodes for a run of inserted lines, ids issued
consecutively from `startId`. -/
def mkRecs (startId : Nat) : List (List Nat) → List LineRec
  | [] => []
  | b :: bs => ⟨startId, b⟩ :: mkRecs (startId + 1) bs

/-- Result of `read_stream`: the new session state, the returned total size,
the status message printed after the loop (if any), and the final value of
`newline_added`. -/
structure ReadResult where
  state : EdState
  total : Nat
  msg : Option String
  newline_added : Bool
deriving DecidableEq

/-- io.c `read_stream`: ingest a whole stream into the collection after
address `addr`.  After the loop, at most one status message is chosen
(`Newline inserted` before `Newline appended`), the returned total is
adjusted by one for a newline synthesized into a non-appending binary read,
and on an appending binary read that synthesized a newline (or read
nothing) the unterminated-line marker is set to the new last node. -/
def read_stream (st : EdState) (addr : Nat) (data : List Nat) : ReadResult :=
  let q := ingest_loop st.isbinary false data
  let newRecs := mkRecs st.nextId q.lines
  let lines2 := st.lines.take addr ++ newRecs ++ st.lines.drop addr
  let msg :=
    if addr ≠ 0 ∧ addr = lastAddr st ∧ q.total ≠ 0 ∧ unterminated_last_line st = true then
      some "Newline inserted"
    else if q.nlAdded = true ∧ (¬ addr = lastAddr st ∨ q.binary = false) then
      some "Newline appended"
    else none
  let total2 :=
    if ¬ addr = lastAddr st ∧ q.binary = true ∧ st.isbinary = false ∧ q.nlAdded = true then
      q.total + 1
    else q.total
  let marker2 :=
    if addr = lastAddr st ∧ q.binary = true ∧ (q.nlAdded = true ∨ total2 = 0) then
      some (node_id_at lines2 lines2.length)
    else st.unterminated
  ⟨⟨lines2, q.binary, marker2, st.nextId + q.lines.length⟩, total2, msg, q.nlAdded⟩

/-- The `while( from && from <= to )` loop of `write_stream`, structurally
recursive on the number of remaining addresses.  Each line is emitted
followed by a newline byte unless it sits at the last address of the
collection while the session is in binary mode and the unterminated-line
marker is on that last node. -/
def write_go (st : EdState) : Nat → Nat → Option (List Nat × Nat)
  | _, 0 => some ([], 0)
  | f, n + 1 =>
    match get_sbuf_line st f with
    | none => none
    | some r =>
      let withNL :=
        if f = lastAddr st ∧ st.isbinary = true ∧ unterminated_last_line st = true
        then r.bytes else r.bytes ++ [10]
      match write_go st (f + 1) n with
      | none => none
      | some q => some (withNL ++ q.1, withNL.length + q.2)

/-- io.c `write_stream`: emit the inclusive address range `[f, t]`; a zero
`f` or an empty range emits nothing.  Returns the emitted bytes and the
accumulated size (the C return value). -/
def write_stream (st : EdState) (f t : Nat) : Option (List Nat × Nat) :=
  if f = 0 then some ([], 0) else write_go st f (t + 1 - f)

/-- Result of `write_file`: the mode the target was opened with (`none` if
the open failed), the bytes written by the stream loop, and the returned
line count (or -1). -/
structure WriteFileResult where
  openedMode : Option String
  written : List Nat
  ret : Int
deriving DecidableEq

/-- io.c `write_file`: open the target (success abstracted by `openOk`),
drive `write_stream` over the range, close (success abstracted by
`closeOk`), and return the line count of the range, or 0 for an empty or
zero-from range, or -1 on any failure.  Under the OS/2 build a `b` is
appended to the caller-supplied mode before the open; file-system effects
of the open (such as truncation under mode `w`) are outside the model and
represented by the recorded opened mode. -/
def write_file (st : EdState) (mode : String) (os2 : Bool)
    (openOk closeOk : Bool) (f t : Nat) : WriteFileResult :=
  let openMode := if os2 then mode ++ "b" else mode
  if openOk = false then ⟨none, [], -1⟩
  else
    match write_stream st f t with
    | none => ⟨some openMode, [], -1⟩
    | some q =>
      if closeOk = false then ⟨some openMode, q.1, -1⟩
      else ⟨some openMode, q.1,
            if f ≠ 0 ∧ f ≤ t then (t : Int) - (f : Int) + 1 else 0⟩

/-- Result of `get_stdin_line`: the returned buffer (`some`, since the
stream-error and allocation-failure paths are outside the pure model; the
function returns to its caller in every modelled case), the reported size,
the script line counter, the binary flag, the error message set (if any),
and the unread remainder of standard input. -/
structure StdinResult where
  buf : Option (List Nat)
  size : Nat
  linenum : Nat
  binary : Bool
  err : Option String
  rest : List Nat
deriving DecidableEq

/-- io.c `get_stdin_line`: read one line from standard input.  A NUL byte
sets the binary flag; a completed line increments the line counter and is
returned with its newline.  On end-of-file before a newline the partial
line is discarded: the buffer is emptied, size 0 is reported, the counter
is incremented when at least one byte had been read, and the error message
`Unexpected end-of-file` is set — the function still returns normally. -/
def get_stdin_line (binary : Bool) (linenum : Nat) (input : List Nat) : StdinResult :=
  let chunk := input.takeWhile (fun c => c ≠ 10)
  if chunk.length < input.length then
    { buf := some (chunk ++ [10]), size := chunk.length + 1, linenum := linenum + 1,
      binary := binary || decide (0 ∈ chunk), err := none,
      rest := input.drop (chunk.length + 1) }
  else
    { buf := some [], size := 0,
      linenum := if 0 < input.length then linenum + 1 else linenum,
      binary := binary || decide (0 ∈ input),
      err := some "Unexpected end-of-file", rest := [] }

/-- The backward scan of io.c `trailing_escape`: walk the reversed prefix,
toggling the parity accumulator for each leading backslash, stopping at the
first non-backslash byte. -/
def trailing_escape_go (odd : Bool) : List Nat → Bool
  | [] => odd
  | c :: r => if c = 92 then trailing_escape_go (! odd) r else odd

/-- io.c `trailing_escape`: the parity of the run of backslash bytes at the
end of the first `len` bytes of `s`. -/
def trailing_escape (s : List Nat) (len : Nat) : Bool :=
  trailing_escape_go false ((s.take len).reverse)

/-- The `strchr( escapes, ch )` lookup of `print_line` over the table
`"\a\b\f\n\r\t\v"` / `"abfnrtv"`: the mnemonic letter replacing a control
byte, if the byte is one of the seven (the NUL byte finds only the string
terminator in C and is excluded there by the `ch &&` guard; here it simply
finds nothing). -/
def escMnemonic (ch : Nat) : Option Nat :=
  if ch = 7 then some 97
  else if ch = 8 then some 98
  else if ch = 12 then some 102
  else if ch = 10 then some 110
  else if ch = 13 then some 114
  else if ch = 9 then some 116
  else if ch = 11 then some 118
  else none

/-- One iteration of the escaped-mode (`GLS`) byte loop of `print_line`:
from the current output column, advance the column, wrap with a backslash
and newline when it passes the window width, then emit the byte as itself,
as a backslash-escaped `$` or `\`, as a backslash-mnemonic pair, or as a
backslash with three octal digits.  Returns the new column and the emitted
characters. -/
def printLineChar (W col ch : Nat) : Nat × List Nat :=
  let col1 := col + 1
  let col2 := if col1 > W then 1 else col1
  let pre : List Nat := if col1 > W then [92, 10] else []
  if 32 ≤ ch ∧ ch ≤ 126 then
    if ch = 36 ∨ ch = 92 then (col2 + 1, pre ++ [92, ch])
    else (col2, pre ++ [ch])
  else
    match escMnemonic ch with
    | some letter => (col2 + 1, pre ++ [92, letter])
    | none =>
      (col2 + 3,
       pre ++ [92, ((ch >>> 6) &&& 7) + 48, ((ch >>> 3) &&& 7) + 48, (ch &&& 7) + 48])

/-- The byte loop of `print_line`: in escaped mode each byte goes through
`printLineChar`; in plain mode each byte is emitted verbatim and the column
is untouched.  Returns the final column and the emitted characters. -/
def print_line_loop (W : Nat) (gls : Bool) (col : Nat) : List Nat → Nat × List Nat
  | [] => (col, [])
  | ch :: rest =>
    if gls then
      let r1 := printLineChar W col ch
      let r2 := print_line_loop W gls r1.1 rest
      (r2.1, r1.2 ++ r2.2)
    else
      let r2 := print_line_loop W gls col rest
      (r2.1, ch :: r2.2)

/-- io.c `print_line`: optional line-number prefix (`GNP`: the decimal
address, a tab, column preset to 8), the byte loop, the `$` marker in
escaped non-traditional mode, and the final newline. -/
def print_line (W : Nat) (gnp : Bool) (curAddr : Nat) (gls trad : Bool)
    (p : List Nat) : List Nat :=
  let pre : List Nat :=
    if gnp then ((Nat.toDigits 10 curAddr).map Char.toNat) ++ [9] else []
  let col0 := if gnp then 8 else 0
  pre ++ (print_line_loop W gls col0 p).2
      ++ (if trad = false ∧ gls = true then [36] else []) ++ [10]

/-- The lengths of the physical output lines of a character stream: the
lengths of the segments delimited by newline bytes, the first segment
starting with `cur` characters already on the line. -/
def segLens : Nat → List Nat → List Nat
  | cur, [] => [cur]
  | cur, c :: r => if c = 10 then cur :: segLens 0 r else segLens (cur + 1) r

/-- Specification-side splitter: the newline-terminated chunks of a byte
sequence, without their newlines (fuel-driven; fuel `data.length` always
suffices). -/
def splitNL10_go : Nat → List Nat → List (List Nat)
  | 0, _ => []
  | fuel + 1, data =>
    if data = [] then []
    else
      data.takeWhile (fun c => c ≠ 10) ::
        splitNL10_go fuel (data.drop ((data.takeWhile (fun c => c ≠ 10)).length + 1))

/-- Specification-side splitter wrapper. -/
def splitNL10 (data : List Nat) : List (List Nat) :=
  splitNL10_go data.length data

/-- Specification-side join: each chunk followed by a newline byte. -/
def joinNL (ls : List (List Nat)) : List Nat :=
  (ls.map (fun l => l ++ [10])).flatten

/-- Specification-side emission of one address, worded as the spec words
the newline rule: the stored bytes, followed by a newline byte unless this
address is the last address of the collection, the session is in binary
mode, and this very line holds the unterminated-line marker. -/
def emitOneSpec (st : EdState) (a : Nat) : List Nat :=
  match get_sbuf_line st a with
  | none => []
  | some r =>
    if a = lastAddr st ∧ st.isbinary = true ∧ st.unterminated = some r.id
    then r.bytes else r.bytes ++ [10]

/-- A fresh session: empty collection, binary mode off, no marker. -/
def initState : EdState := ⟨[], false, none, 1⟩

/-- A session whose binary flag is already set while the collection is
empty (reachable: a NUL byte on standard input sets the sticky flag via
`get_stdin_line` without touching the collection). -/
def binInit : EdState := ⟨[], true, none, 1⟩

/-! ### List helper lemmas -/

lemma takeWhile_ne10_all {l : List Nat} (h : (10:Nat) ∉ l) :
    l.takeWhile (fun c => c ≠ 10) = l := by
  rw [List.takeWhile_eq_self_iff]
  intro x hx
  simp only [ne_eq, decide_not, Bool.not_eq_true', decide_eq_false_iff_not]
  intro he
  exact h (he ▸ hx)

lemma takeWhile_ne10_lt {l : List Nat} (h : (10:Nat) ∈ l) :
    (l.takeWhile (fun c => c ≠ 10)).length < l.length := by
  induction l with
  | nil => cases h
  | cons c r ih =>
    by_cases hc : c = 10
    · subst hc; simp [List.takeWhile_cons]
    · rw [List.takeWhile_cons]
      have h10 : (10:Nat) ∈ r := by
        rcases List.mem_cons.mp h with he | hm
        · exact absurd he.symm hc
        · exact hm
      simpa [hc] using Nat.succ_lt_succ (ih h10)

lemma takeWhile_chunk_append (tw rest2 : List Nat)
    (h : ∀ x ∈ tw, x ≠ 10) :
    (tw ++ 10 :: rest2).takeWhile (fun c => c ≠ 10) = tw := by
  induction tw with
  | nil => simp [List.takeWhile_cons]
  | cons a tws ih =>
    have ha : a ≠ 10 := h a (List.mem_cons_self a tws)
    rw [List.cons_append, List.takeWhile_cons]
    simp only [ha, decide_not]
    simpa [ha] using ih (fun x hx => h x (List.mem_cons_of_mem a hx))

lemma split_at_10 : ∀ (l : List Nat), (10:Nat) ∈ l →
    l = l.takeWhile (fun c => c ≠ 10) ++
        10 :: l.drop ((l.takeWhile (fun c => c ≠ 10)).length + 1) := by
  intro l
  induction l with
  | nil => intro h; cases h
  | cons c r ih =>
    intro h
    by_cases hc : c = 10
    · subst hc; simp [List.takeWhile_cons]
    · have h10 : (10:Nat) ∈ r := by
        rcases List.mem_cons.mp h with he | hm
        · exact absurd he.symm hc
        · exact hm
      rw [List.takeWhile_cons]
      simp only [hc, decide_not, decide_False]
      simpa [hc] using congrArg (List.cons c) (ih h10)

/-! ### C3: read_stream_line at end-of-stream without a newline -/

lemma rsl_eof (binary : Bool) (input : List Nat)
    (h1 : input ≠ []) (h2 : (10:Nat) ∉ input) :
    read_stream_line binary input =
      ⟨input ++ [10],
       if binary || decide (0 ∈ input) then input.length else input.length + 1,
       true, binary || decide (0 ∈ input), []⟩ := by
  unfold read_stream_line
  rw [takeWhile_ne10_all h2]
  simp [h1]

/-- Claim C3, corrected.  When `read_stream_line` reaches end-of-stream with
at least one byte read and no newline seen, it synthesizes a trailing
newline and reports the newline-added flag; the synthesized byte IS counted
in the returned size while the session is not in binary mode (the size is
one more than the number of source bytes), and once binary mode is active
(including when this very line contains the NUL that activated it) the
synthesized byte is NOT counted, so the size equals the number of source
bytes.  This is the reverse of the counting direction stated in the claim. -/
theorem C3_eof_synthesis (binary : Bool) (input : List Nat)
    (h1 : input ≠ []) (h2 : (10:Nat) ∉ input) :
    (read_stream_line binary input).buf = input ++ [10] ∧
    (read_stream_line binary input).synth = true ∧
    ((read_stream_line binary input).binary = false →
      (read_stream_line binary input).size = input.length + 1) ∧
    ((read_stream_line binary input).binary = true →
      (read_stream_line binary input).size = input.length) := by
  rw [rsl_eof binary input h1 h2]
  refine ⟨rfl, rfl, ?_, ?_⟩ <;>
    cases hb : (binary || decide (0 ∈ input)) <;> simp [hb]

/-- Claim C3 as stated is false: reading the single byte `a` (no newline)
while not in binary mode returns size 2, not the source byte count 1; and
the same read with binary mode active returns size 1, the source byte
count, not 2.  The counting direction in the claim is reversed. -/
theorem C3_counterexample :
    (read_stream_line false [97]).synth = true ∧
    (read_stream_line false [97]).binary = false ∧
    (read_stream_line false [97]).size = 2 ∧
    ¬ (read_stream_line false [97]).size = [97].length ∧
    (read_stream_line true [97]).size = 1 := by decide

/-- Witness for C3_eof_synthesis at the concrete input `a`. -/
theorem C3_witness :
    (read_stream_line false [97]).buf = [97, 10] ∧
    (read_stream_line false [97]).synth = true :=
  ⟨(C3_eof_synthesis false [97] (by decide) (by decide)).1,
   (C3_eof_synthesis false [97] (by decide) (by decide)).2.1⟩

/-! ### C9: get_stdin_line at end-of-file mid-line -/

/-- Claim C9.  When `get_stdin_line` hits end-of-file after at least one
byte but before a newline, the partial line is discarded (size 0, buffer
emptied), the input line counter is incremented for the discarded line, the
error message `Unexpected end-of-file` is set, and the function still
returns a buffer to its caller (the process is not terminated; the binary
flag keeps any NUL sighting from the discarded bytes). -/
theorem C9_stdin_eof_midline (binary : Bool) (linenum : Nat) (input : List Nat)
    (h1 : input ≠ []) (h2 : (10:Nat) ∉ input) :
    get_stdin_line binary linenum input =
      ⟨some [], 0, linenum + 1, binary || decide (0 ∈ input),
       some "Unexpected end-of-file", []⟩ := by
  unfold get_stdin_line
  rw [takeWhile_ne10_all h2]
  simp [h1, List.length_pos.mpr h1]

/-- Witness for C9_stdin_eof_midline at the concrete input `a`. -/
theorem C9_witness :
    get_stdin_line false 0 [97] =
      ⟨some [], 0, 1, false, some "Unexpected end-of-file", []⟩ :=
  C9_stdin_eof_midline false 0 [97] (by decide) (by decide)

/-! ### C5: the one-byte terminator-less append scenario -/

/-- Claim C5 as stated is false: for the single byte `a` with no trailing
newline appended to an empty collection with the binary flag active, the
total size is indeed 1 and a newline is synthesized and the marker is set,
but no message at all is printed — `Newline appended` is suppressed because
the read is an append and the session is in binary mode. -/
theorem C5_counterexample :
    (read_stream binInit 0 [97]).total = 1 ∧
    (read_stream binInit 0 [97]).newline_added = true ∧
    unterminated_last_line (read_stream binInit 0 [97]).state = true ∧
    ¬ (read_stream binInit 0 [97]).msg = some "Newline appended" := by decide

/-- Claim C5, corrected.  For the input stream consisting of the single
byte `a` with no trailing newline, appended to an empty collection with
binary mode active, `read_stream` returns total size 1 with a synthesized
newline, prints no status message, and leaves the unterminated-line marker
pointing at the newly inserted last line (id 1, stored bytes `a`). -/
theorem C5_binary_append_scenario :
    (read_stream binInit 0 [97]).total = 1 ∧
    (read_stream binInit 0 [97]).newline_added = true ∧
    (read_stream binInit 0 [97]).msg = none ∧
    (read_stream binInit 0 [97]).state.lines = [⟨1, [97]⟩] ∧
    (read_stream binInit 0 [97]).state.unterminated = some 1 ∧
    unterminated_last_line (read_stream binInit 0 [97]).state = true := by decide

/-! ### C6: trailing_escape parity -/

lemma trailing_go_spec : ∀ (r : List Nat) (odd : Bool),
    trailing_escape_go odd r =
      Bool.xor odd (decide ((r.takeWhile (fun c => c = 92)).length % 2 = 1)) := by
  intro r
  induction r with
  | nil => intro odd; simp [trailing_escape_go]
  | cons c rest ih =>
    intro odd
    by_cases hc : c = 92
    · subst hc
      rw [trailing_escape_go, if_pos rfl, ih, List.takeWhile_cons]
      simp only [decide_True, if_true]
      by_cases hp : (rest.takeWhile (fun c => c = 92)).length % 2 = 1
      · have h2 : ¬ ((rest.takeWhile (fun c => c = 92)).length + 1) % 2 = 1 := by omega
        cases odd <;> simp [hp, h2, List.length_cons]
      · have h2 : ((rest.takeWhile (fun c => c = 92)).length + 1) % 2 = 1 := by omega
        cases odd <;> simp [hp, h2, List.length_cons]
    · rw [trailing_escape_go, if_neg hc, List.takeWhile_cons]
      simp [hc]

/-- Claim C6.  `trailing_escape s len` is true exactly when the run of
backslash bytes at the end of the first `len` bytes of `s` has odd length;
in particular a line ending in two backslashes before its newline (parity
checked on the bytes before the newline, as `get_extended_line` does) has
even parity and one ending in a single backslash has odd parity. -/
theorem C6_trailing_escape_parity :
    (∀ (s : List Nat) (len : Nat),
      trailing_escape s len = true ↔
        ((s.take len).reverse.takeWhile (fun c => c = 92)).length % 2 = 1) ∧
    trailing_escape [97, 92, 92, 10] 3 = false ∧
    trailing_escape [97, 92, 10] 2 = true := by
  refine ⟨?_, by decide, by decide⟩
  intro s len
  unfold trailing_escape
  rw [trailing_go_spec]
  simp

/-! ### C10: write_file on an empty or invalid range -/

/-- Claim C10.  For every `write_file` call whose range is empty or invalid
(`from` is 0 or exceeds `to`), the target is nevertheless opened in the
requested mode (mode `w` hence still truncates an existing file; under the
OS/2 build a `b` is appended to the mode), the stream loop writes zero
bytes, and when open and close both succeed the function returns 0. -/
theorem C10_empty_range (st : EdState) (mode : String) (os2 : Bool) (f t : Nat)
    (h : f = 0 ∨ t < f) :
    write_file st mode os2 true true f t =
      ⟨some (if os2 then mode ++ "b" else mode), [], 0⟩ := by
  have hw : write_stream st f t = some ([], 0) := by
    rcases h with h | h
    · simp [write_stream, h]
    · have h0 : t + 1 - f = 0 := by omega
      unfold write_stream
      rw [h0]
      split
      · rfl
      · rfl
  have hr : ¬ (f ≠ 0 ∧ f ≤ t) := by
    rcases h with h | h
    · simp [h]
    · rintro ⟨-, hle⟩; omega
  unfold write_file
  rw [hw]
  simp [hr]

/-- Witness for C10_empty_range: writing the empty range 0..5 of a fresh
session to a file opened with mode `w`. -/
theorem C10_witness :
    write_file initState "w" false true true 0 5 = ⟨some "w", [], 0⟩ :=
  C10_empty_range initState "w" false 0 5 (Or.inl rfl)

/-! ### C7 and C8: the escaped-mode display formatter -/

/-- The characters emitted for one byte by the escaped-mode loop of
`print_line`, wrap sequence excluded (derived from `printLineChar` by the
factoring lemma below). -/
def escChars (ch : Nat) : List Nat :=
  if 32 ≤ ch ∧ ch ≤ 126 then
    if ch = 36 ∨ ch = 92 then [92, ch] else [ch]
  else
    match escMnemonic ch with
    | some letter => [92, letter]
    | none =>
      [92, ((ch >>> 6) &&& 7) + 48, ((ch >>> 3) &&& 7) + 48, (ch &&& 7) + 48]

lemma printLineChar_eq (W col ch : Nat) :
    printLineChar W col ch =
      if col + 1 > W then ((escChars ch).length, 92 :: 10 :: escChars ch)
      else (col + (escChars ch).length, escChars ch) := by
  cases hm : escMnemonic ch <;>
    by_cases hw : col + 1 > W <;>
      simp only [printLineChar, escChars, hm, hw, if_true, if_false] <;>
        split_ifs <;> simp

set_option maxRecDepth 4096 in
/-- Claim C7.  In escaped mode, while no wrap is triggered (the incremented
column stays within the window), each byte is emitted as follows: printable
ASCII 32..126 as itself, except `$` (36) and `\` (92) which are preceded by
a backslash; the seven control bytes alert, backspace, form-feed, newline,
carriage-return, tab and vertical-tab as a backslash and the mnemonic
letter a, b, f, n, r, t, v; every other byte, byte 0 included, as a
backslash followed by exactly the three octal digits of its value. -/
theorem C7_escape_byte_map (ch W col : Nat) (hch : ch < 256) (hcol : col + 1 ≤ W) :
    (printLineChar W col ch).2 =
      if 32 ≤ ch ∧ ch ≤ 126 then
        (if ch = 36 ∨ ch = 92 then [92, ch] else [ch])
      else if ch = 7 then [92, 97]
      else if ch = 8 then [92, 98]
      else if ch = 12 then [92, 102]
      else if ch = 10 then [92, 110]
      else if ch = 13 then [92, 114]
      else if ch = 9 then [92, 116]
      else if ch = 11 then [92, 118]
      else [92, 48 + ch / 64, 48 + ch / 8 % 8, 48 + ch % 8] := by
  rw [printLineChar_eq, if_neg (by omega)]
  change escChars ch = _
  clear hcol
  revert hch
  revert ch
  decide

/-- Witness for C7_escape_byte_map: byte 0 maps to the octal escape
backslash-000, byte 7 to backslash-a. -/
theorem C7_witness :
    (printLineChar 80 0 0).2 = [92, 48, 48, 48] ∧
    (printLineChar 80 10 7).2 = [92, 97] :=
  ⟨C7_escape_byte_map 0 80 0 (by decide) (by decide),
   C7_escape_byte_map 7 80 10 (by decide) (by decide)⟩

lemma escChars_len_le (ch : Nat) : (escChars ch).length ≤ 4 := by
  cases hm : escMnemonic ch <;>
    simp only [escChars, hm] <;> split_ifs <;> simp

lemma escChars_ne10 (ch : Nat) : ∀ x ∈ escChars ch, x ≠ 10 := by
  intro x hx
  unfold escChars at hx
  by_cases h1 : 32 ≤ ch ∧ ch ≤ 126
  · rw [if_pos h1] at hx
    by_cases h2 : ch = 36 ∨ ch = 92
    · rw [if_pos h2] at hx
      simp only [List.mem_cons, List.not_mem_nil, or_false] at hx
      rcases hx with rfl | rfl
      · omega
      · rcases h2 with rfl | rfl <;> omega
    · rw [if_neg h2] at hx
      simp only [List.mem_cons, List.not_mem_nil, or_false] at hx
      subst hx
      omega
  · rw [if_neg h1] at hx
    cases hm : escMnemonic ch with
    | some letter =>
      simp only [hm, List.mem_cons, List.not_mem_nil, or_false] at hx
      have hl : letter = 97 ∨ letter = 98 ∨ letter = 102 ∨ letter = 110 ∨
          letter = 114 ∨ letter = 116 ∨ letter = 118 := by
        unfold escMnemonic at hm
        split_ifs at hm <;> simp_all
      rcases hx with rfl | rfl
      · omega
      · rcases hl with rfl | rfl | rfl | rfl | rfl | rfl | rfl <;> omega
    | none =>
      simp only [hm, List.mem_cons, List.not_mem_nil, or_false] at hx
      rcases hx with rfl | rfl | rfl | rfl <;> omega

lemma segLens_cons (cur c : Nat) (r : List Nat) :
    segLens cur (c :: r) = if c = 10 then cur :: segLens 0 r else segLens (cur + 1) r := rfl

lemma segLens_ne_nil : ∀ (cur : Nat) (l : List Nat), segLens cur l ≠ [] := by
  intro cur l
  induction l generalizing cur with
  | nil => simp [segLens]
  | cons c r ih =>
    by_cases hc : c = 10 <;> simp [segLens_cons, hc, ih]

lemma segLens_append_no10 : ∀ (a : List Nat) (cur : Nat) (b : List Nat),
    (∀ x ∈ a, x ≠ 10) → segLens cur (a ++ b) = segLens (cur + a.length) b := by
  intro a
  induction a with
  | nil => intro cur b _; simp
  | cons c r ih =>
    intro cur b h
    have hc : c ≠ 10 := h c (List.mem_cons_self c r)
    rw [List.cons_append, segLens_cons, if_neg hc,
        ih (cur + 1) b (fun x hx => h x (List.mem_cons_of_mem c hx))]
    congr 1
    simp only [List.length_cons]
    omega

lemma print_line_loop_cons (W col ch : Nat) (rest : List Nat) :
    print_line_loop W true col (ch :: rest) =
      ((print_line_loop W true (printLineChar W col ch).1 rest).1,
       (printLineChar W col ch).2 ++
         (print_line_loop W true (printLineChar W col ch).1 rest).2) := by
  simp [print_line_loop]

lemma print_loop_bound : ∀ (p : List Nat) (W col : Nat), 1 ≤ W → col ≤ W + 3 →
    (print_line_loop W true col p).1 ≤ W + 3 ∧
    ∀ tail : List Nat,
      (∀ x ∈ segLens (print_line_loop W true col p).1 tail, x ≤ W + 4) →
      ∀ x ∈ segLens col ((print_line_loop W true col p).2 ++ tail), x ≤ W + 4 := by
  intro p
  induction p with
  | nil =>
    intro W col hW hcol
    refine ⟨hcol, ?_⟩
    intro tail h x hx
    exact h x (by simpa [print_line_loop] using hx)
  | cons ch rest ih =>
    intro W col hW hcol
    rw [print_line_loop_cons, printLineChar_eq]
    by_cases hw : col + 1 > W
    · rw [if_pos hw]
      dsimp only
      have hcol2 : (escChars ch).length ≤ W + 3 := by
        have := escChars_len_le ch; omega
      obtain ⟨ih1, ih2⟩ := ih W (escChars ch).length hW hcol2
      refine ⟨ih1, ?_⟩
      intro tail h x hx
      rw [List.append_assoc, List.cons_append, List.cons_append,
          segLens_cons, if_neg (by omega), segLens_cons, if_pos rfl] at hx
      rw [segLens_append_no10 (escChars ch) 0 _ (escChars_ne10 ch),
          Nat.zero_add] at hx
      rcases List.mem_cons.mp hx with rfl | hx2
      · omega
      · exact ih2 tail h x hx2
    · rw [if_neg hw]
      dsimp only
      have hcol2 : col + (escChars ch).length ≤ W + 3 := by
        have := escChars_len_le ch; omega
      obtain ⟨ih1, ih2⟩ := ih W (col + (escChars ch).length) hW hcol2
      refine ⟨ih1, ?_⟩
      intro tail h x hx
      rw [List.append_assoc,
          segLens_append_no10 (escChars ch) col _ (escChars_ne10 ch)] at hx
      exact ih2 tail h x hx

/-- Claim C8 as stated is false: with window width 1, listing the
two-byte line NUL, `a` puts the four characters backslash-000 on the first
physical output line before the wrap backslash is emitted — more than the
width W = 1 permits.  (The wrap check runs once per source byte, before the
byte is rendered, so a multi-character escape can overshoot the width by up
to three characters.) -/
theorem C8_counterexample :
    print_line 1 false 0 true true [0, 97] = [92, 48, 48, 48, 92, 10, 97, 10] ∧
    ((print_line 1 false 0 true true [0, 97]).takeWhile (fun c => c ≠ 10)).length = 5 ∧
    ¬ (5 - 1 ≤ 1) := by decide

/-- Claim C8, corrected.  For every line and window width W of at least 1,
the escaped-mode output of `print_line` places at most W + 3 characters on
a physical output line before a wrap backslash-newline (or the closing
dollar-newline); counting the trailing wrap backslash or dollar marker,
every newline-delimited segment of the output has length at most W + 4.
The claimed bound W itself is exceeded by up to 3 characters when a
multi-character escape lands at the end of a line. -/
theorem C8_wrap_bound (W : Nat) (trad : Bool) (p : List Nat) (hW : 1 ≤ W) :
    ∀ x, x ∈ segLens 0 (print_line W false 0 true trad p) → x ≤ W + 4 := by
  intro x hx
  unfold print_line at hx
  simp only [Bool.false_eq_true, if_false, and_true, List.nil_append] at hx
  obtain ⟨h1, h2⟩ := print_loop_bound p W 0 hW (by omega)
  rw [List.append_assoc] at hx
  refine h2 ((if trad = false then [36] else []) ++ [10]) ?_ x hx
  intro y hy
  by_cases ht : trad = false
  · rw [if_pos ht, List.cons_append, List.nil_append, segLens_cons,
        if_neg (by omega), segLens_cons, if_pos rfl] at hy
    rcases List.mem_cons.mp hy with rfl | hy2
    · omega
    · simp [segLens] at hy2
      omega
  · rw [if_neg ht, List.nil_append, segLens_cons, if_pos rfl] at hy
    rcases List.mem_cons.mp hy with rfl | hy2
    · omega
    · simp [segLens] at hy2
      omega

/-- Witness for C8_wrap_bound: the overlong first physical line of the
counterexample (5 characters, wrap backslash included) still satisfies the
corrected bound W + 4 = 5. -/
theorem C8_witness : (5 : Nat) ≤ 1 + 4 :=
  C8_wrap_bound 1 true [0, 97] (by decide) 5 (by decide)

/-! ### C2: the newline decision of write_stream -/

lemma unterm_iff_at_last (st : EdState) (f : Nat) (r : LineRec)
    (hf : get_sbuf_line st f = some r) (hlast : f = lastAddr st) :
    unterminated_last_line st = true ↔ st.unterminated = some r.id := by
  have hlen : st.lines.length ≠ 0 := by
    intro h0
    unfold get_sbuf_line at hf
    rw [List.getElem?_eq_none] at hf
    · cases hf
    · omega
  have hid : node_id_at st.lines (lastAddr st) = r.id := by
    unfold node_id_at lastAddr
    rw [if_neg hlen]
    unfold get_sbuf_line at hf
    rw [hlast] at hf
    unfold lastAddr at hf
    rw [hf]
  unfold unterminated_last_line
  cases hm : st.unterminated with
  | none => simp
  | some i => simp [hid]

lemma write_go_spec (st : EdState) :
    ∀ (n f : Nat), 1 ≤ f → f + n ≤ lastAddr st + 1 →
      write_go st f n =
        some (((List.range' f n).map (emitOneSpec st)).flatten,
              (((List.range' f n).map (emitOneSpec st)).flatten).length) := by
  intro n
  induction n with
  | zero =>
    intro f h1 h2
    simp [write_go, List.range']
  | succ n ih =>
    intro f h1 h2
    have hf : f - 1 < st.lines.length := by
      unfold lastAddr at h2; omega
    have hget : get_sbuf_line st f = some st.lines[f - 1] := by
      unfold get_sbuf_line
      exact List.getElem?_eq_getElem hf
    have hcond : (f = lastAddr st ∧ st.isbinary = true ∧
        unterminated_last_line st = true) ↔
      (f = lastAddr st ∧ st.isbinary = true ∧
        st.unterminated = some (st.lines[f - 1]).id) := by
      constructor
      · rintro ⟨ha, hb, hc⟩
        exact ⟨ha, hb, (unterm_iff_at_last st f _ hget ha).mp hc⟩
      · rintro ⟨ha, hb, hc⟩
        exact ⟨ha, hb, (unterm_iff_at_last st f _ hget ha).mpr hc⟩
    have hemit : emitOneSpec st f =
        (if f = lastAddr st ∧ st.isbinary = true ∧
            unterminated_last_line st = true
         then (st.lines[f - 1]).bytes else (st.lines[f - 1]).bytes ++ [10]) := by
      unfold emitOneSpec
      rw [hget]
      exact (if_congr hcond.symm rfl rfl)
    rw [List.range'_succ]
    show write_go st f (n + 1) = _
    rw [write_go, hget]
    rw [ih (f + 1) (by omega) (by omega)]
    simp only [List.map_cons, List.flatten_cons, List.length_append]
    rw [hemit]

/-- Claim C2.  For every valid range, `write_stream` emits per address the
stored bytes followed by a newline byte, except that the newline is omitted
exactly when all three conditions hold at once: the address is the last
address of the collection, the session is in binary mode, and that line
holds the unterminated-line marker (`emitOneSpec` words this rule as the
claim does).  In consequence, a range whose last line was ingested without
a trailing newline is reproduced terminator-less: the byte `a` ingested
without newline into an empty binary-mode session writes back as exactly
the byte `a`. -/
theorem C2_omit_newline_rule :
    (∀ (st : EdState) (f t : Nat), 1 ≤ f → t ≤ lastAddr st →
      write_stream st f t =
        some (((List.range' f (t + 1 - f)).map (emitOneSpec st)).flatten,
              (((List.range' f (t + 1 - f)).map (emitOneSpec st)).flatten).length)) ∧
    write_stream (read_stream binInit 0 [97]).state 1 1 = some ([97], 1) := by
  constructor
  · intro st f t h1 h2
    unfold write_stream
    rw [if_neg (by omega)]
    by_cases hft : f ≤ t
    · exact write_go_spec st (t + 1 - f) f h1 (by omega)
    · have h0 : t + 1 - f = 0 := by omega
      rw [h0]
      simp [write_go, List.range']
  · decide

/-- Witness for C2_omit_newline_rule: writing back the two-line collection
obtained by reading `a` newline `b` newline into a fresh session emits both
lines with their newlines. -/
theorem C2_witness :
    write_stream (read_stream initState 0 [97, 10, 98, 10]).state 1 2 =
      some ([97, 10, 98, 10], 4) := by
  have h := C2_omit_newline_rule.1 (read_stream initState 0 [97, 10, 98, 10]).state
    1 2 (by decide) (by decide)
  exact h.trans (by decide)

/-! ### C1: the ingest-then-emit round trip -/

lemma splitNL10_go_nil (fuel : Nat) : splitNL10_go fuel [] = [] := by
  cases fuel <;> simp [splitNL10_go]

lemma splitNL10_go_irrel : ∀ (f1 : Nat) (data : List Nat) (f2 : Nat),
    data.length ≤ f1 → data.length ≤ f2 →
    splitNL10_go f1 data = splitNL10_go f2 data := by
  intro f1
  induction f1 with
  | zero =>
    intro data f2 h1 h2
    have hd : data = [] := List.eq_nil_of_length_eq_zero (by omega)
    subst hd
    simp [splitNL10_go_nil]
  | succ k ih =>
    intro data f2 h1 h2
    by_cases hd : data = []
    · subst hd; simp [splitNL10_go_nil]
    · cases f2 with
      | zero =>
        have := List.length_pos.mpr hd
        omega
      | succ m =>
        rw [splitNL10_go, splitNL10_go, if_neg hd, if_neg hd]
        congr 1
        have hpos := List.length_pos.mpr hd
        apply ih
        · rw [List.length_drop]; omega
        · rw [List.length_drop]; omega

lemma splitNL10_cons (data : List Nat) (hd : data ≠ []) :
    splitNL10 data =
      data.takeWhile (fun c => c ≠ 10) ::
        splitNL10 (data.drop ((data.takeWhile (fun c => c ≠ 10)).length + 1)) := by
  unfold splitNL10
  obtain ⟨k, hk⟩ : ∃ k, data.length = k + 1 :=
    ⟨data.length - 1, by have := List.length_pos.mpr hd; omega⟩
  rw [hk, splitNL10_go, if_neg hd]
  congr 1
  have hpos := List.length_pos.mpr hd
  apply splitNL10_go_irrel
  · rw [List.length_drop]; omega
  · exact le_rfl

lemma ingest_go_empty (fuel : Nat) (b nl : Bool) :
    ingest_go fuel b nl [] = ⟨[], 0, nl, b⟩ := by
  cases fuel <;> simp [ingest_go]

lemma decide_not_mem_zero {l : List Nat} (h : (0:Nat) ∉ l) :
    decide ((0:Nat) ∈ l) = false := by
  simpa using h

lemma put_chunk (tw : List Nat) (extra : Nat) (h : ∀ x ∈ tw, x ≠ 10) :
    put_sbuf_line (tw ++ [10]) (tw.length + 1 + extra) = tw := by
  unfold put_sbuf_line
  rw [List.take_of_length_le (by simp)]
  exact takeWhile_chunk_append tw [] h

lemma rest_last (data : List Nat) (h10 : (10:Nat) ∈ data)
    (hL : data.getLast? = some 10) :
    (data.drop ((data.takeWhile (fun c => c ≠ 10)).length + 1)).getLast? = some 10 ∨
    data.drop ((data.takeWhile (fun c => c ≠ 10)).length + 1) = [] := by
  set rest := data.drop ((data.takeWhile (fun c => c ≠ 10)).length + 1) with hrest
  by_cases hre : rest = []
  · right; exact hre
  · left
    have heq : data.getLast? = rest.getLast? := by
      conv_lhs => rw [split_at_10 data h10]
      rw [← hrest, List.getLast?_append_of_ne_nil _ (by simp),
          show (10:Nat) :: rest = [10] ++ rest from rfl,
          List.getLast?_append_of_ne_nil _ hre]
    rw [← heq, hL]

lemma tw_ne10 (data : List Nat) :
    ∀ x ∈ data.takeWhile (fun c => c ≠ 10), x ≠ 10 := by
  intro x hx
  have := List.mem_takeWhile_imp hx
  simpa using this

lemma ingest_go_spec : ∀ (fuel : Nat) (data : List Nat) (b nl : Bool),
    data.length ≤ fuel → (0:Nat) ∉ data →
    (data.getLast? = some 10 ∨ data = []) →
    ingest_go fuel b nl data = ⟨splitNL10 data, data.length, nl, b⟩ := by
  intro fuel
  induction fuel with
  | zero =>
    intro data b nl h1 h0 hL
    have hd : data = [] := List.eq_nil_of_length_eq_zero (by omega)
    subst hd
    simp [ingest_go, splitNL10, splitNL10_go]
  | succ k ih =>
    intro data b nl h1 h0 hL
    by_cases hd : data = []
    · subst hd; simp [ingest_go_empty, splitNL10, splitNL10_go]
    · replace hL : data.getLast? = some 10 := by
        rcases hL with hL | hL
        · exact hL
        · exact absurd hL hd
      have h10 : (10:Nat) ∈ data := List.mem_of_getLast?_eq_some hL
      have hlt : (data.takeWhile (fun c => c ≠ 10)).length < data.length :=
        takeWhile_ne10_lt h10
      have hr : read_stream_line b data =
          ⟨data.takeWhile (fun c => c ≠ 10) ++ [10],
           (data.takeWhile (fun c => c ≠ 10)).length + 1, false,
           b || decide ((0:Nat) ∈ data.takeWhile (fun c => c ≠ 10)),
           data.drop ((data.takeWhile (fun c => c ≠ 10)).length + 1)⟩ := by
        unfold read_stream_line
        rw [if_pos hlt]
      have htw0 : (0:Nat) ∉ data.takeWhile (fun c => c ≠ 10) :=
        fun hx => h0 ((List.takeWhile_prefix _).subset hx)
      have hrest0 : (0:Nat) ∉
          data.drop ((data.takeWhile (fun c => c ≠ 10)).length + 1) :=
        fun hx => h0 (List.drop_subset _ _ hx)
      have hpos := List.length_pos.mpr hd
      have hrestlen :
          (data.drop ((data.takeWhile (fun c => c ≠ 10)).length + 1)).length ≤ k := by
        rw [List.length_drop]; omega
      rw [ingest_go, if_neg hd]
      simp only [hr, Bool.or_false, decide_not_mem_zero htw0]
      rw [ih _ b nl hrestlen hrest0 (rest_last data h10 hL)]
      rw [put_chunk _ _ (tw_ne10 data)]
      rw [splitNL10_cons data hd]
      have hlen : data.length =
          (data.takeWhile (fun c => c ≠ 10)).length + 1 +
            (data.drop ((data.takeWhile (fun c => c ≠ 10)).length + 1)).length := by
        rw [List.length_drop]; omega
      rw [← hlen]

lemma mkRecs_bytes : ∀ (ls : List (List Nat)) (i : Nat),
    (mkRecs i ls).map (fun r => r.bytes) = ls := by
  intro ls
  induction ls with
  | nil => intro i; rfl
  | cons b bs ih => intro i; simp [mkRecs, ih]

lemma mkRecs_length : ∀ (ls : List (List Nat)) (i : Nat),
    (mkRecs i ls).length = ls.length := by
  intro ls
  induction ls with
  | nil => intro i; rfl
  | cons b bs ih => intro i; simp [mkRecs, ih]

lemma read_stream_init (data : List Nat) (h0 : (0:Nat) ∉ data)
    (h10 : data.getLast? = some 10) :
    read_stream initState 0 data =
      ⟨⟨mkRecs 1 (splitNL10 data), false, none, 1 + (splitNL10 data).length⟩,
       data.length, none, false⟩ := by
  have hq : ingest_loop initState.isbinary false data =
      ⟨splitNL10 data, data.length, false, false⟩ := by
    unfold ingest_loop
    exact ingest_go_spec data.length data _ false le_rfl h0 (Or.inl h10)
  unfold read_stream
  rw [hq]
  simp [initState, lastAddr]

lemma joinNL_splitNL10 : ∀ (fuel : Nat) (data : List Nat), data.length ≤ fuel →
    (data.getLast? = some 10 ∨ data = []) → joinNL (splitNL10 data) = data := by
  intro fuel
  induction fuel with
  | zero =>
    intro data h1 hL
    have hd : data = [] := List.eq_nil_of_length_eq_zero (by omega)
    subst hd
    simp [splitNL10, splitNL10_go, joinNL]
  | succ k ih =>
    intro data h1 hL
    by_cases hd : data = []
    · subst hd; simp [splitNL10, splitNL10_go, joinNL]
    · replace hL : data.getLast? = some 10 := by
        rcases hL with hL | hL
        · exact hL
        · exact absurd hL hd
      have h10 : (10:Nat) ∈ data := List.mem_of_getLast?_eq_some hL
      have hpos := List.length_pos.mpr hd
      have hrestlen :
          (data.drop ((data.takeWhile (fun c => c ≠ 10)).length + 1)).length ≤ k := by
        rw [List.length_drop]
        have := takeWhile_ne10_lt h10
        omega
      rw [splitNL10_cons data hd]
      simp only [joinNL, List.map_cons, List.flatten_cons]
      have hx := ih _ hrestlen (rest_last data h10 hL)
      unfold joinNL at hx
      rw [hx]
      conv_rhs => rw [split_at_10 data h10]
      simp

lemma emit_flatten_nobin (st : EdState) (hb : st.isbinary = false) :
    ∀ (n f : Nat), 1 ≤ f → f + n = lastAddr st + 1 →
      ((List.range' f n).map (emitOneSpec st)).flatten =
        joinNL ((st.lines.drop (f - 1)).map (fun r => r.bytes)) := by
  intro n
  induction n with
  | zero =>
    intro f h1 h2
    have hdrop : st.lines.drop (f - 1) = [] := by
      apply List.drop_eq_nil_of_le
      have hla : lastAddr st = st.lines.length := rfl
      omega
    simp [hdrop, joinNL, List.range']
  | succ n ih =>
    intro f h1 h2
    have hf : f - 1 < st.lines.length := by
      have hla : lastAddr st = st.lines.length := rfl
      omega
    have hdrop : st.lines.drop (f - 1) = st.lines[f - 1] :: st.lines.drop f := by
      rw [List.drop_eq_getElem_cons hf, show f - 1 + 1 = f from by omega]
    have hemit : emitOneSpec st f = (st.lines[f - 1]).bytes ++ [10] := by
      unfold emitOneSpec get_sbuf_line
      rw [List.getElem?_eq_getElem hf]
      show (if f = lastAddr st ∧ st.isbinary = true ∧
          st.unterminated = some (st.lines[f - 1]).id
        then (st.lines[f - 1]).bytes else (st.lines[f - 1]).bytes ++ [10]) = _
      rw [if_neg]
      rintro ⟨-, hbt, -⟩
      rw [hb] at hbt
      cases hbt
    rw [List.range'_succ, hdrop]
    simp only [List.map_cons, List.flatten_cons, joinNL]
    rw [hemit]
    have hx := ih (f + 1) (by omega) (by omega)
    unfold joinNL at hx
    simp only [show f + 1 - 1 = f from by omega] at hx
    rw [hx]

/-- Claim C1.  For every byte sequence that contains no NUL byte and ends
in a newline, reading it with `read_stream` into a fresh session and then
emitting the full resulting range with `write_stream` reproduces the
original byte sequence exactly (and reports its exact length). -/
theorem C1_roundtrip (data : List Nat) (h0 : (0:Nat) ∉ data)
    (h10 : data.getLast? = some 10) :
    write_stream (read_stream initState 0 data).state 1
        (lastAddr (read_stream initState 0 data).state) =
      some (data, data.length) := by
  rw [read_stream_init data h0 h10]
  unfold write_stream
  rw [if_neg one_ne_zero]
  rw [write_go_spec _ _ 1 le_rfl (by omega)]
  rw [emit_flatten_nobin _ rfl _ 1 le_rfl (by omega)]
  simp only [Nat.sub_self, List.drop_zero]
  have hby : ((⟨mkRecs 1 (splitNL10 data), false, none,
      1 + (splitNL10 data).length⟩ : EdState)).lines.map (fun r => r.bytes) =
      splitNL10 data := mkRecs_bytes (splitNL10 data) 1
  rw [hby, joinNL_splitNL10 data.length data le_rfl (Or.inl h10)]

/-- Witness for C1_roundtrip at the concrete two-line stream
`a` newline `b` `c` newline. -/
theorem C1_witness :
    write_stream (read_stream initState 0 [97, 10, 98, 99, 10]).state 1
        (lastAddr (read_stream initState 0 [97, 10, 98, 99, 10]).state) =
      some ([97, 10, 98, 99, 10], 5) :=
  C1_roundtrip [97, 10, 98, 99, 10] (by decide) (by decide)

/-! ### C4: the status-message priority of read_stream -/

lemma read_stream_msg (st : EdState) (addr : Nat) (data : List Nat) :
    (read_stream st addr data).msg =
      (if addr ≠ 0 ∧ addr = lastAddr st ∧
          (ingest_loop st.isbinary false data).total ≠ 0 ∧
          unterminated_last_line st = true then some "Newline inserted"
       else if (ingest_loop st.isbinary false data).nlAdded = true ∧
          (¬ addr = lastAddr st ∨
            (ingest_loop st.isbinary false data).binary = false) then
         some "Newline appended"
       else none) := rfl

lemma read_stream_total (st : EdState) (addr : Nat) (data : List Nat) :
    (read_stream st addr data).total =
      (if ¬ addr = lastAddr st ∧ (ingest_loop st.isbinary false data).binary = true ∧
          st.isbinary = false ∧ (ingest_loop st.isbinary false data).nlAdded = true
       then (ingest_loop st.isbinary false data).total + 1
       else (ingest_loop st.isbinary false data).total) := rfl

lemma read_stream_na (st : EdState) (addr : Nat) (data : List Nat) :
    (read_stream st addr data).newline_added =
      (ingest_loop st.isbinary false data).nlAdded := rfl

lemma read_stream_bin (st : EdState) (addr : Nat) (data : List Nat) :
    (read_stream st addr data).state.isbinary =
      (ingest_loop st.isbinary false data).binary := rfl

lemma inserted_cond_iff (st : EdState) (addr : Nat) (tot : Nat) :
    (addr ≠ 0 ∧ addr = lastAddr st ∧ tot ≠ 0 ∧
      unterminated_last_line st = true) ↔
    (addr = lastAddr st ∧ tot ≠ 0 ∧
      ∃ r, st.lines.getLast? = some r ∧ st.unterminated = some r.id) := by
  constructor
  · rintro ⟨h0, hap, ht, hu⟩
    refine ⟨hap, ht, ?_⟩
    have hlen : st.lines.length ≠ 0 := by
      intro he
      apply h0
      rw [hap]
      unfold lastAddr
      exact he
    obtain ⟨r, hr⟩ : ∃ r, st.lines.getLast? = some r := by
      cases hgl : st.lines.getLast? with
      | none =>
        rw [List.getLast?_eq_none_iff] at hgl
        exact absurd (by rw [hgl]; rfl) hlen
      | some r => exact ⟨r, rfl⟩
    refine ⟨r, hr, ?_⟩
    unfold unterminated_last_line at hu
    cases hm : st.unterminated with
    | none => rw [hm] at hu; cases hu
    | some i =>
      rw [hm] at hu
      simp only [decide_eq_true_eq] at hu
      have hid : node_id_at st.lines (lastAddr st) = r.id := by
        unfold node_id_at lastAddr
        rw [if_neg hlen]
        rw [List.getLast?_eq_getElem?] at hr
        simp only [hr]
      rw [hu, hid]
  · rintro ⟨hap, ht, r, hr, hm⟩
    have hne : st.lines ≠ [] := by
      intro he
      rw [he] at hr
      simp at hr
    have hlen : st.lines.length ≠ 0 := by
      intro he
      exact hne (List.eq_nil_of_length_eq_zero he)
    refine ⟨?_, hap, ht, ?_⟩
    · rw [hap]
      unfold lastAddr
      exact hlen
    · unfold unterminated_last_line
      rw [hm]
      simp only [decide_eq_true_eq]
      unfold node_id_at lastAddr
      rw [if_neg hlen]
      rw [List.getLast?_eq_getElem?] at hr
      simp only [hr]

/-- Claim C4.  After the ingest loop of `read_stream`, exactly one status
message is chosen by priority: `Newline inserted` is printed exactly when
the insertion was an append, the returned total is nonzero, and the prior
last line held the unterminated-line marker; otherwise `Newline appended`
is printed exactly when the last read synthesized a trailing newline and
the insertion was not an append or the session is not in binary mode;
otherwise no message is printed.  (The condition that the prior last line
holds the marker entails that the collection was nonempty, hence that the
appending address was nonzero, matching the `addr &&` guard in the code;
the returned total coincides with the loop total in the append case, since
the total adjustment only applies to non-appending reads.) -/
theorem C4_message_priority (st : EdState) (addr : Nat) (data : List Nat) :
    ((read_stream st addr data).msg = some "Newline inserted" ↔
      (addr = lastAddr st ∧ (read_stream st addr data).total ≠ 0 ∧
       ∃ r, st.lines.getLast? = some r ∧ st.unterminated = some r.id)) ∧
    ((read_stream st addr data).msg = some "Newline appended" ↔
      (¬ (addr = lastAddr st ∧ (read_stream st addr data).total ≠ 0 ∧
          ∃ r, st.lines.getLast? = some r ∧ st.unterminated = some r.id) ∧
       (read_stream st addr data).newline_added = true ∧
       (¬ addr = lastAddr st ∨
         (read_stream st addr data).state.isbinary = false))) ∧
    ((read_stream st addr data).msg = none ↔
      (¬ (addr = lastAddr st ∧ (read_stream st addr data).total ≠ 0 ∧
          ∃ r, st.lines.getLast? = some r ∧ st.unterminated = some r.id) ∧
       ¬ ((read_stream st addr data).newline_added = true ∧
          (¬ addr = lastAddr st ∨
            (read_stream st addr data).state.isbinary = false)))) := by
  rw [read_stream_msg, read_stream_total, read_stream_na, read_stream_bin]
  have hsne : ("Newline inserted" : String) ≠ "Newline appended" := by decide
  by_cases hap : addr = lastAddr st
  · have htot : (if ¬ addr = lastAddr st ∧
        (ingest_loop st.isbinary false data).binary = true ∧
        st.isbinary = false ∧ (ingest_loop st.isbinary false data).nlAdded = true
       then (ingest_loop st.isbinary false data).total + 1
       else (ingest_loop st.isbinary false data).total) =
        (ingest_loop st.isbinary false data).total := by
      rw [if_neg]
      rintro ⟨hc, -⟩
      exact hc hap
    rw [htot]
    by_cases hc1 : addr ≠ 0 ∧ addr = lastAddr st ∧
        (ingest_loop st.isbinary false data).total ≠ 0 ∧
        unterminated_last_line st = true
    · have hr1 := (inserted_cond_iff st addr
        (ingest_loop st.isbinary false data).total).mp hc1
      rw [if_pos hc1]
      refine ⟨iff_of_true rfl hr1, iff_of_false (by simp) ?_,
        iff_of_false (by simp) ?_⟩
      · rintro ⟨hn, -, -⟩
        exact hn hr1
      · rintro ⟨hn, -⟩
        exact hn hr1
    · have hr1 : ¬ (addr = lastAddr st ∧
          (ingest_loop st.isbinary false data).total ≠ 0 ∧
          ∃ r, st.lines.getLast? = some r ∧ st.unterminated = some r.id) :=
        fun h => hc1 ((inserted_cond_iff st addr
          (ingest_loop st.isbinary false data).total).mpr h)
      rw [if_neg hc1]
      by_cases hc2 : (ingest_loop st.isbinary false data).nlAdded = true ∧
          (¬ addr = lastAddr st ∨
            (ingest_loop st.isbinary false data).binary = false)
      · rw [if_pos hc2]
        refine ⟨iff_of_false (by simp) hr1,
          iff_of_true rfl ⟨hr1, hc2.1, hc2.2⟩, iff_of_false (by simp) ?_⟩
        rintro ⟨-, hn⟩
        exact hn hc2
      · rw [if_neg hc2]
        refine ⟨iff_of_false (by simp) ?_, iff_of_false (by simp) ?_,
          iff_of_true rfl ⟨hr1, hc2⟩⟩
        · rintro h
          exact hr1 h
        · rintro ⟨-, h2, h3⟩
          exact hc2 ⟨h2, h3⟩
  · have hc1 : ¬ (addr ≠ 0 ∧ addr = lastAddr st ∧
        (ingest_loop st.isbinary false data).total ≠ 0 ∧
        unterminated_last_line st = true) := by
      rintro ⟨-, hc, -, -⟩
      exact hap hc
    have hr1 : ¬ (addr = lastAddr st ∧
        (if ¬ addr = lastAddr st ∧
            (ingest_loop st.isbinary false data).binary = true ∧
            st.isbinary = false ∧
            (ingest_loop st.isbinary false data).nlAdded = true
         then (ingest_loop st.isbinary false data).total + 1
         else (ingest_loop st.isbinary false data).total) ≠ 0 ∧
        ∃ r, st.lines.getLast? = some r ∧ st.unterminated = some r.id) := by
      rintro ⟨hc, -, -⟩
      exact hap hc
    rw [if_neg hc1]
    by_cases hc2 : (ingest_loop st.isbinary false data).nlAdded = true ∧
        (¬ addr = lastAddr st ∨
          (ingest_loop st.isbinary false data).binary = false)
    · rw [if_pos hc2]
      refine ⟨iff_of_false (by simp) hr1,
        iff_of_true rfl ⟨hr1, hc2.1, hc2.2⟩, iff_of_false (by simp) ?_⟩
      rintro ⟨-, hn⟩
      exact hn hc2
    · rw [if_neg hc2]
      refine ⟨iff_of_false (by simp) hr1, iff_of_false (by simp) ?_,
        iff_of_true rfl ⟨hr1, hc2⟩⟩
      rintro ⟨-, h2, h3⟩
      exact hc2 ⟨h2, h3⟩
